import Mathlib

/-!
Verification of the yt-dlp-web download-queue core.

Shallow embedding of `src/apps/backend/download-queue.ts` (DownloadQueueManager)
and `src/apps/backend/yt-dlp-cli.ts` (YtDlpCli).  Job maps are association
lists with JavaScript `Map.set` semantics (update-in-place or append); the
pending queue and the active-download set are lists of ids; numeric progress
and speed values are rationals.
-/

set_option maxRecDepth 4000

namespace YtDlpWeb

/-- Job status enum from `types.ts`:
`"pending" | "downloading" | "completed" | "failed" | "cancelled"`. -/
inductive JobStatus
  | pending
  | downloading
  | completed
  | failed
  | cancelled
  deriving DecidableEq, Repr, BEq

/-- The fields of `DownloadJob` the verified claims are about: `status`,
`error` and `files` (url, titles, paths and timestamps are carried along
unchanged by all the modelled operations and are omitted). -/
structure Job where
  status : JobStatus
  error : Option String := none
  files : Option (List String) := none
  deriving DecidableEq, Repr, BEq

/-- `this.jobs : Map<string, DownloadJob>` as an association list in insertion
order. -/
abbrev JobMap := List (String × Job)

/-- JavaScript `Map.get`: the entry for `id`, if any. -/
def lookupJob : JobMap → String → Option Job
  | [], _ => none
  | (k, v) :: rest, id => if k = id then some v else lookupJob rest id

/-- JavaScript `Map.set`: update the existing entry in place, else append. -/
def setJob : JobMap → String → Job → JobMap
  | [], id, j => [(id, j)]
  | (k, v) :: rest, id, j =>
    if k = id then (k, j) :: rest else (k, v) :: setJob rest id j

/-- `MAX_CONCURRENT = 3` (download-queue.ts line 22). -/
def MAX_CONCURRENT : Nat := 3

/-- The mutable state of one `DownloadQueueManager`: the job table, the
pending queue and the active-download set. -/
structure QState where
  jobs : JobMap
  queue : List String
  active : List String
  deriving Repr

/-- The `while` loop of `processQueue` (download-queue.ts lines 216-233),
made explicit over the queue list: while the queue is nonempty and fewer than
`MAX_CONCURRENT` downloads are active, shift the head id, re-check that its
job exists and is still `pending`, and only then admit it (add to the active
set; `executeDownload` then synchronously marks it `downloading`). -/
def processQueueGo (jobs : JobMap) (active : List String) :
    List String → JobMap × List String × List String
  | [] => (jobs, [], active)
  | jobId :: rest =>
    if active.length < MAX_CONCURRENT then
      match lookupJob jobs jobId with
      | none => processQueueGo jobs active rest
      | some job =>
        if job.status = .pending then
          processQueueGo (setJob jobs jobId { job with status := .downloading })
            (jobId :: active) rest
        else processQueueGo jobs active rest
    else (jobs, jobId :: rest, active)

/-- `processQueue` (download-queue.ts lines 216-233). -/
def processQueue (s : QState) : QState :=
  let r := processQueueGo s.jobs s.active s.queue
  ⟨r.1, r.2.1, r.2.2⟩

/-- `needle` occurs as a contiguous run at the front of the list. -/
def prefixEq : List Char → List Char → Bool
  | [], _ => true
  | _ :: _, [] => false
  | a :: as, b :: bs => a = b && prefixEq as bs

/-- `needle` occurs as a contiguous run anywhere in the list. -/
def containsSeq (needle : List Char) : List Char → Bool
  | [] => needle.isEmpty
  | c :: cs => prefixEq needle (c :: cs) || containsSeq needle cs

/-- JavaScript `String.prototype.includes`. -/
def strIncludes (hay needle : String) : Bool :=
  containsSeq needle.toList hay.toList

/-- Exit handling of `YtDlpCli.download` (yt-dlp-cli.ts lines 235-333):
`wasCancelled` is initialised `false` and is never reassigned anywhere in the
function; on a non-zero exit with `wasCancelled` unset the function throws
`"yt-dlp failed with exit code N"`; a `wasCancelled` exit would throw
`"Download was cancelled"`. -/
def downloadExit (exitCode : Int) (files : List String) :
    Except String (List String) :=
  let wasCancelled := false
  if exitCode ≠ 0 && !wasCancelled then
    Except.error ("yt-dlp failed with exit code " ++ toString exitCode)
  else if wasCancelled then
    Except.error "Download was cancelled"
  else
    Except.ok files

/-- The settlement of `executeDownload` (download-queue.ts lines 235-333): on
success the job becomes `completed` with its files; on a rejection the error
is stringified (`String(error)` prefixes `"Error: "`), and the job becomes
`cancelled` when that string contains `"cancelled"`, else `failed` with the
message stored. -/
def executeDownloadSettle (m : JobMap) (id : String)
    (r : Except String (List String)) : JobMap :=
  match lookupJob m id with
  | none => m
  | some job =>
    match r with
    | Except.ok fs => setJob m id { job with status := .completed, files := some fs }
    | Except.error msg =>
      let errorMsg := "Error: " ++ msg
      if strIncludes errorMsg "cancelled" then
        setJob m id { job with status := .cancelled }
      else
        setJob m id { job with status := .failed, error := some errorMsg }

/-- The `.finally` continuation of an admitted job (download-queue.ts lines
228-231) together with the settlement above: apply the download's outcome to
the job, remove the id from the active set, and run one admission pass. -/
def finishDownload (s : QState) (id : String)
    (r : Except String (List String)) : QState :=
  processQueue ⟨executeDownloadSettle s.jobs id r, s.queue, s.active.erase id⟩

/-- `cancelDownload` (download-queue.ts lines 389-423).  `killed` is the
result of `ytDlp.cancelDownload` (whether a live process handle was found and
killed); the process registry itself lives in `YtDlpCli` and is abstracted to
this flag. -/
def cancelDownload (s : QState) (id : String) (killed : Bool) : QState × Bool :=
  match lookupJob s.jobs id with
  | none => (s, false)
  | some job =>
    if job.status = .pending then
      (⟨setJob s.jobs id { job with status := .cancelled },
        s.queue.erase id, s.active⟩, true)
    else if job.status = .downloading then
      if killed then
        (⟨setJob s.jobs id { job with status := .cancelled },
          s.queue, s.active⟩, true)
      else (s, false)
    else (s, false)

/-- The mutation tail of `addDownload` (download-queue.ts lines 163-214): a
fresh job id is inserted into the table with status `pending`, pushed at the
back of the queue, and one admission pass runs. -/
def addDownload (s : QState) (id : String) (j : Job) : QState :=
  processQueue ⟨setJob s.jobs id j, s.queue ++ [id], s.active⟩

/-- `clearQueue` (download-queue.ts lines 439-452): after cancelling the
active downloads, the whole table, queue and active set are reset. -/
def clearQueue : QState := ⟨[], [], []⟩

/-- The persisted snapshot schema (download-queue.ts lines 12-15):
`{ jobs: [...], queue: [ids...] }`. -/
structure PersistedState where
  jobs : List (String × Job)
  queue : List String

/-- The per-job restore transform of `loadState` (download-queue.ts lines
74-87): a stored `downloading` job is reset to `pending`; every other status
is kept.  (The date-string rehydration acts on fields not modelled here.) -/
def resetJob (j : Job) : Job :=
  if j.status = .downloading then { j with status := .pending } else j

/-- The `state.jobs.forEach` loop of `loadState`: each persisted entry is
reset and `Map.set` into the (initially empty) job table, in order. -/
def restoreFold (m : JobMap) : List (String × Job) → JobMap
  | [] => m
  | (id, j) :: rest => restoreFold (setJob m id (resetJob j)) rest

/-- The restore stage of `loadState` (download-queue.ts lines 74-95): rebuild
the job table, then keep exactly the persisted queue entries whose restored
job exists and is `pending`.  The active set is empty after a restart. -/
def restoreState (st : PersistedState) : QState :=
  ⟨restoreFold [] st.jobs,
   st.queue.filter fun id =>
     match lookupJob (restoreFold [] st.jobs) id with
     | some j => j.status == JobStatus.pending
     | none => false,
   []⟩

/-- The path of the state file (download-queue.ts line 33, relative part). -/
def stateFilePath : String := "data/queue-state.json"

/-- Outcome of `loadState`: the backup file written (path and content), if
any, and the manager state it proceeds with. -/
structure LoadResult where
  backup : Option (String × String)
  state : QState
  deriving Repr

/-- The guard `!data || data.trim().length === 0` of `loadState`: the content
is empty or all whitespace. -/
def isBlank (s : String) : Bool := s.toList.all Char.isWhitespace

/-- `loadState` (download-queue.ts lines 47-103).  `now` is `Date.now()`;
`fileExists` is `existsSync(stateFile)`; `raw` is the file content;
`parsed` is the result of `JSON.parse(raw)` (`none` when it throws), which is
taken as an oracle parameter since JSON parsing itself is out of scope.  A
missing file or blank content is skipped; an unparsable file is first copied
to a timestamped `.corrupt.` backup and then skipped; otherwise the snapshot
is restored and one admission pass (`processQueue`) runs. -/
def loadState (now : Nat) (fileExists : Bool) (raw : String)
    (parsed : Option PersistedState) : LoadResult :=
  if fileExists then
    if isBlank raw then ⟨none, ⟨[], [], []⟩⟩
    else
      match parsed with
      | none => ⟨some (stateFilePath ++ ".corrupt." ++ toString now, raw), ⟨[], [], []⟩⟩
      | some st => ⟨none, processQueue (restoreState st)⟩
  else ⟨none, ⟨[], [], []⟩⟩

/-- Debounced `saveState` (download-queue.ts lines 105-130), modelled over
discrete millisecond time.  The first component is the pending timer deadline
(`saveTimeout`), the list holds the remaining mutation times in ascending
order, and the result is the list of times at which a snapshot write fires.
A mutation at time `t`: if the pending timer's deadline has already passed it
has fired (one write); otherwise `clearTimeout` cancels it; either way a new
write is scheduled for `t + 1000`.  A still-pending timer fires at the end. -/
def saveStateRuns : Option Nat → List Nat → List Nat
  | none, [] => []
  | some d, [] => [d]
  | none, t :: ts => saveStateRuns (some (t + 1000)) ts
  | some d, t :: ts =>
    if d ≤ t then d :: saveStateRuns (some (t + 1000)) ts
    else saveStateRuns (some (t + 1000)) ts

/-- `SPEED_HISTORY_SIZE = 5` (yt-dlp-cli.ts line 14). -/
def SPEED_HISTORY_SIZE : Nat := 5

/-- The speed-smoothing update of `parseProgress` (yt-dlp-cli.ts lines
364-377): push the raw sample, and if the history now exceeds 5 entries,
shift the oldest one out. -/
def pushSpeed (hist : List ℚ) (raw : ℚ) : List ℚ :=
  let h := hist ++ [raw]
  if SPEED_HISTORY_SIZE < h.length then h.tail else h

/-- `reduce((a, b) => a + b, 0) / length`: the arithmetic mean reported by
`parseProgress`. -/
def listAvg (l : List ℚ) : ℚ := l.sum / (l.length : ℚ)

/-- The speed history after a download (starting from the empty history set
by `download`, yt-dlp-cli.ts line 240) has pushed the given raw samples. -/
def historyAfter (samples : List ℚ) : List ℚ := samples.foldl pushSpeed []

/-- The smoothed speed value reported for the last of the given raw samples. -/
def reportedSpeed (samples : List ℚ) : ℚ := listAvg (historyAfter samples)

/-- One playlist item in per-item mode: its `--playlist-items` index, the raw
percent samples its subprocess reports, and the outcome of its
`ytDlp.download` call. -/
structure ItemRun where
  idx : Nat
  samples : List ℚ
  result : Except String (List String)

/-- The progress fields `downloadPlaylistWithPerItemFormats` fills in:
percent, `currentVideo`, `totalVideos`. -/
structure Prog where
  percent : ℚ
  currentVideo : Nat
  totalVideos : Nat
  deriving DecidableEq, Repr

/-- The progress events emitted while the item with (1-based) position `c`
of `total` runs (download-queue.ts lines 350-375): first the playlist-tracking
event with percent 0, then, for each raw item percent `p`, the combined event
with overall percent `((c - 1) / total) * 100 + p / total`. -/
def itemEvents (c total : Nat) (r : ItemRun) : List Prog :=
  ⟨0, c, total⟩ ::
    r.samples.map fun p => ⟨((c : ℚ) - 1) / total * 100 + p / total, c, total⟩

/-- The `for` loop of `downloadPlaylistWithPerItemFormats` (download-queue.ts
lines 346-384): `completed` is the `completedItems` counter, incremented at
the top of each iteration; a failed item's error is caught and the item
skipped, a successful item's files are appended; the loop always proceeds to
the next item.  Returns the emitted progress events and the collected files. -/
def perItemLoop (total : Nat) : Nat → List ItemRun → List Prog × List String
  | _, [] => ([], [])
  | completed, r :: rest =>
    let c := completed + 1
    let res := perItemLoop total c rest
    (itemEvents c total r ++ res.1,
     (match r.result with
      | Except.ok fs => fs
      | Except.error _ => []) ++ res.2)

/-- `downloadPlaylistWithPerItemFormats` (download-queue.ts lines 335-387):
`totalItems` is the item count captured at job start. -/
def downloadPlaylistWithPerItemFormats (runs : List ItemRun) :
    List Prog × List String :=
  perItemLoop runs.length 0 runs

/-- Events hitting the single instance-level `speedHistory` buffer of one
`YtDlpCli`: a `download()` call starting (which resets the buffer,
yt-dlp-cli.ts line 240), or a progress line of the download tagged `tag`
carrying raw speed sample `raw`. -/
inductive SEvent
  | start
  | sample (tag : Nat) (raw : ℚ)

/-- Replay a sequence of events against the shared `speedHistory` buffer
`h`; returns the final buffer and, in order, each reported smoothed speed
together with the tag of the download that reported it. -/
def runSpeedAux (h : List ℚ) : List SEvent → List ℚ × List (Nat × ℚ)
  | [] => (h, [])
  | SEvent.start :: es => runSpeedAux [] es
  | SEvent.sample t raw :: es =>
    let h' := pushSpeed h raw
    let res := runSpeedAux h' es
    (res.1, (t, listAvg h') :: res.2)

/-- Replay from a fresh `YtDlpCli` instance (empty buffer). -/
def runSpeed (es : List SEvent) : List ℚ × List (Nat × ℚ) := runSpeedAux [] es

/-- The asynchronous transitions of one `DownloadQueueManager`: job
submission (with a fresh id, as produced by `generateJobId`), settlement of
an admitted download with outcome `r`, `cancelDownload`, and `clearQueue`. -/
inductive Step : QState → QState → Prop
  | submit (s : QState) (id : String) (j : Job)
      (fresh : lookupJob s.jobs id = none) (hp : j.status = .pending) :
      Step s (addDownload s id j)
  | finish (s : QState) (id : String) (r : Except String (List String))
      (hmem : id ∈ s.active) :
      Step s (finishDownload s id r)
  | cancel (s : QState) (id : String) (killed : Bool) :
      Step s (cancelDownload s id killed).1
  | clear (s : QState) :
      Step s clearQueue

/-- States a manager can be in: freshly constructed (possibly after restoring
a snapshot, `loadState` being called from the constructor), or reached from
one of those by any number of transitions. -/
inductive Reachable : QState → Prop
  | init : Reachable ⟨[], [], []⟩
  | load (now : Nat) (fileExists : Bool) (raw : String)
      (parsed : Option PersistedState) :
      Reachable (loadState now fileExists raw parsed).state
  | step (s t : QState) (hs : Reachable s) (h : Step s t) : Reachable t

/-- Number of jobs in the table whose status is `downloading`. -/
def countDownloading (s : QState) : Nat :=
  (s.jobs.filter fun e => e.2.status = JobStatus.downloading).length

/-- Inductive invariant of the manager: the active set has no duplicates and
respects the concurrency bound, the job table has no duplicate ids, every
`downloading` job is in the active set, and every active id has a
non-`pending` job. -/
structure Inv (s : QState) : Prop where
  activeNodup : s.active.Nodup
  activeBound : s.active.length ≤ MAX_CONCURRENT
  keysNodup : (s.jobs.map Prod.fst).Nodup
  downloadingActive : ∀ id j, lookupJob s.jobs id = some j →
    j.status = .downloading → id ∈ s.active
  activeNotPending : ∀ id, id ∈ s.active →
    ∃ j, lookupJob s.jobs id = some j ∧ j.status ≠ .pending

/-- A job sitting mid-download, with its process registered: the situation
`cancelDownload` acts on in its `"downloading"` branch. -/
def c1Start : QState := ⟨[("a", { status := JobStatus.downloading })], [], ["a"]⟩

/-- A snapshot taken while job `"a"` was downloading: `processQueue` had
already shifted `"a"` out of the queue before it was admitted, so the
persisted queue no longer holds its id. -/
def c2Snapshot : PersistedState :=
  ⟨[("a", { status := JobStatus.downloading })], []⟩

/-- A 2-item playlist in per-item mode whose second item reports 30 percent. -/
def c4Runs : List ItemRun := [⟨1, [], Except.ok []⟩, ⟨2, [30], Except.ok []⟩]

/-- A 2-item playlist in per-item mode whose first item's subprocess fails
and whose second item produces one file. -/
def c9Runs : List ItemRun :=
  [⟨1, [], Except.error "boom"⟩, ⟨2, [], Except.ok ["f.mp4"]⟩]

/-- The per-item job `"a"` while it runs. -/
def c9Job : Job := { status := JobStatus.downloading }

/-- The job table while the per-item job `"a"` runs. -/
def c9Jobs : JobMap := [("a", c9Job)]

/-- A job still waiting in the queue. -/
def c7Job : Job := { status := JobStatus.pending }

/-- A manager with one queued pending job and no active downloads. -/
def c7Start : QState := ⟨[("a", c7Job)], ["a"], []⟩

theorem lookupJob_setJob_self (m : JobMap) (id : String) (j : Job) :
    lookupJob (setJob m id j) id = some j := by
  induction m with
  | nil => simp [setJob, lookupJob]
  | cons e rest ih =>
    obtain ⟨k, v⟩ := e
    by_cases h : k = id
    · simp [setJob, lookupJob, h]
    · simp [setJob, lookupJob, h, ih]

theorem lookupJob_setJob_ne (m : JobMap) (id id' : String) (j : Job)
    (h : id' ≠ id) : lookupJob (setJob m id j) id' = lookupJob m id' := by
  induction m with
  | nil =>
    simp only [setJob, lookupJob]
    rw [if_neg fun hh => h hh.symm]
  | cons e rest ih =>
    obtain ⟨k, v⟩ := e
    by_cases hk : k = id
    · subst hk
      simp only [setJob, if_pos rfl, lookupJob]
      rw [if_neg fun hh => h hh.symm, if_neg fun hh => h hh.symm]
    · simp [setJob, lookupJob, hk, ih]

theorem keys_setJob (m : JobMap) (id : String) (j : Job) :
    (setJob m id j).map Prod.fst = m.map Prod.fst ∨
    (setJob m id j).map Prod.fst = m.map Prod.fst ++ [id] := by
  induction m with
  | nil => simp [setJob]
  | cons e rest ih =>
    obtain ⟨k, v⟩ := e
    by_cases hk : k = id
    · simp [setJob, hk]
    · rcases ih with ih | ih
      · exact Or.inl (by simp [setJob, hk, ih])
      · exact Or.inr (by simp [setJob, hk, ih])

theorem lookupJob_eq_none_iff (m : JobMap) (id : String) :
    lookupJob m id = none ↔ id ∉ m.map Prod.fst := by
  induction m with
  | nil => simp [lookupJob]
  | cons e rest ih =>
    obtain ⟨k, v⟩ := e
    by_cases hk : k = id
    · subst hk
      simp [lookupJob]
    · rw [List.map_cons, List.mem_cons]
      simp only [lookupJob, if_neg hk, ih]
      constructor
      · intro hnot hor
        rcases hor with h1 | h1
        · exact hk h1.symm
        · exact hnot h1
      · intro hnot h1
        exact hnot (Or.inr h1)

theorem keys_setJob_nodup (m : JobMap) (id : String) (j : Job)
    (h : (m.map Prod.fst).Nodup) :
    ((setJob m id j).map Prod.fst).Nodup := by
  induction m with
  | nil => simp [setJob]
  | cons e rest ih =>
    obtain ⟨k, v⟩ := e
    by_cases hk : k = id
    · simpa [setJob, hk] using h
    · simp only [setJob, if_neg hk, List.map_cons]
      rw [List.map_cons, List.nodup_cons] at h
      rw [List.nodup_cons]
      refine ⟨?_, ih h.2⟩
      intro hmem
      rcases keys_setJob rest id j with hkk | hkk
      · rw [hkk] at hmem
        exact h.1 hmem
      · rw [hkk] at hmem
        rcases List.mem_append.mp hmem with h1 | h1
        · exact h.1 h1
        · simp at h1
          exact hk h1

theorem setJob_of_lookup_none (m : JobMap) (id : String) (j : Job)
    (h : lookupJob m id = none) : setJob m id j = m ++ [(id, j)] := by
  induction m with
  | nil => simp [setJob]
  | cons e rest ih =>
    obtain ⟨k, v⟩ := e
    by_cases hk : k = id
    · simp [lookupJob, hk] at h
    · simp only [lookupJob, if_neg hk] at h
      simp [setJob, hk, ih h]

theorem mem_of_lookupJob (m : JobMap) (id : String) (j : Job)
    (h : lookupJob m id = some j) : (id, j) ∈ m := by
  induction m with
  | nil => simp [lookupJob] at h
  | cons e rest ih =>
    obtain ⟨k, v⟩ := e
    by_cases hk : k = id
    · subst hk
      simp [lookupJob] at h
      simp [h]
    · simp only [lookupJob, if_neg hk] at h
      exact List.mem_cons_of_mem _ (ih h)

theorem lookupJob_of_mem (m : JobMap) (id : String) (j : Job)
    (hnd : (m.map Prod.fst).Nodup) (h : (id, j) ∈ m) :
    lookupJob m id = some j := by
  induction m with
  | nil => simp at h
  | cons e rest ih =>
    obtain ⟨k, v⟩ := e
    rw [List.map_cons, List.nodup_cons] at hnd
    rcases List.mem_cons.mp h with h1 | h1
    · cases h1
      simp [lookupJob]
    · have hk : k ≠ id := by
        intro hkk
        subst hkk
        exact hnd.1 (List.mem_map.mpr ⟨(k, j), h1, rfl⟩)
      simp only [lookupJob, if_neg hk]
      exact ih hnd.2 h1

theorem processQueueGo_full (q : List String) (jobs : JobMap)
    (active : List String) (h : MAX_CONCURRENT ≤ active.length) :
    processQueueGo jobs active q = (jobs, q, active) := by
  cases q with
  | nil => simp [processQueueGo]
  | cons jobId rest => simp [processQueueGo, Nat.not_lt.mpr h]

theorem processQueueGo_admits_pending (q : List String) (jobs : JobMap)
    (active : List String) (id : String)
    (h : id ∈ (processQueueGo jobs active q).2.2) :
    id ∈ active ∨ ∃ j, lookupJob jobs id = some j ∧ j.status = .pending := by
  induction q generalizing jobs active with
  | nil =>
    simp only [processQueueGo] at h
    exact Or.inl h
  | cons jobId rest ih =>
    by_cases hlt : active.length < MAX_CONCURRENT
    · cases hl : lookupJob jobs jobId with
      | none =>
        simp only [processQueueGo, if_pos hlt, hl] at h
        exact ih _ _ h
      | some job =>
        simp only [processQueueGo, if_pos hlt, hl] at h
        by_cases hp : job.status = .pending
        · rw [if_pos hp] at h
          rcases ih _ _ h with hmem | ⟨j, hj, hjp⟩
          · rcases List.mem_cons.mp hmem with rfl | hmem'
            · exact Or.inr ⟨job, hl, hp⟩
            · exact Or.inl hmem'
          · by_cases hid : id = jobId
            · subst hid
              exact Or.inr ⟨job, hl, hp⟩
            · rw [lookupJob_setJob_ne _ _ _ _ hid] at hj
              exact Or.inr ⟨j, hj, hjp⟩
        · rw [if_neg hp] at h
          exact ih _ _ h
    · rw [processQueueGo_full _ _ _ (Nat.not_lt.mp hlt)] at h
      exact Or.inl h

theorem processQueueGo_lookup_stable (q : List String) (jobs : JobMap)
    (active : List String) (id : String) (j : Job)
    (hj : lookupJob jobs id = some j) (hnp : j.status ≠ .pending) :
    lookupJob (processQueueGo jobs active q).1 id = some j := by
  induction q generalizing jobs active with
  | nil => simpa [processQueueGo] using hj
  | cons jobId rest ih =>
    by_cases hlt : active.length < MAX_CONCURRENT
    · cases hl : lookupJob jobs jobId with
      | none =>
        simp only [processQueueGo, if_pos hlt, hl]
        exact ih _ _ hj
      | some job =>
        simp only [processQueueGo, if_pos hlt, hl]
        by_cases hp : job.status = .pending
        · rw [if_pos hp]
          have hid : id ≠ jobId := by
            intro hid
            subst hid
            rw [hl] at hj
            cases hj
            exact hnp hp
          exact ih _ _ (by rw [lookupJob_setJob_ne _ _ _ _ hid]; exact hj)
        · rw [if_neg hp]
          exact ih _ _ hj
    · rw [processQueueGo_full _ _ _ (Nat.not_lt.mp hlt)]
      exact hj

theorem processQueueGo_inv (q : List String) (jobs : JobMap)
    (active : List String)
    (h1 : active.Nodup) (h2 : active.length ≤ MAX_CONCURRENT)
    (h3 : (jobs.map Prod.fst).Nodup)
    (h4 : ∀ id j, lookupJob jobs id = some j → j.status = .downloading →
      id ∈ active)
    (h5 : ∀ id, id ∈ active →
      ∃ j, lookupJob jobs id = some j ∧ j.status ≠ .pending) :
    (processQueueGo jobs active q).2.2.Nodup ∧
    (processQueueGo jobs active q).2.2.length ≤ MAX_CONCURRENT ∧
    ((processQueueGo jobs active q).1.map Prod.fst).Nodup ∧
    (∀ id j, lookupJob (processQueueGo jobs active q).1 id = some j →
      j.status = .downloading → id ∈ (processQueueGo jobs active q).2.2) ∧
    (∀ id, id ∈ (processQueueGo jobs active q).2.2 →
      ∃ j, lookupJob (processQueueGo jobs active q).1 id = some j ∧
        j.status ≠ .pending) := by
  induction q generalizing jobs active with
  | nil =>
    simp only [processQueueGo]
    exact ⟨h1, h2, h3, h4, h5⟩
  | cons jobId rest ih =>
    by_cases hlt : active.length < MAX_CONCURRENT
    · cases hl : lookupJob jobs jobId with
      | none =>
        simp only [processQueueGo, if_pos hlt, hl]
        exact ih _ _ h1 h2 h3 h4 h5
      | some job =>
        simp only [processQueueGo, if_pos hlt, hl]
        by_cases hp : job.status = .pending
        · rw [if_pos hp]
          have hnotact : jobId ∉ active := by
            intro hmem
            obtain ⟨j', hj', hjp'⟩ := h5 _ hmem
            rw [hl] at hj'
            cases hj'
            exact hjp' hp
          refine ih _ _ ?_ ?_ ?_ ?_ ?_
          · exact List.nodup_cons.mpr ⟨hnotact, h1⟩
          · simpa using hlt
          · exact keys_setJob_nodup _ _ _ h3
          · intro id j hj hjd
            by_cases hid : id = jobId
            · subst hid
              exact List.mem_cons_self _ _
            · rw [lookupJob_setJob_ne _ _ _ _ hid] at hj
              exact List.mem_cons_of_mem _ (h4 _ _ hj hjd)
          · intro id hmem
            rcases List.mem_cons.mp hmem with rfl | hmem'
            · refine ⟨{ job with status := .downloading },
                lookupJob_setJob_self _ _ _, by simp⟩
            · obtain ⟨j', hj', hjp'⟩ := h5 _ hmem'
              have hid : id ≠ jobId := fun hh => hnotact (hh ▸ hmem')
              exact ⟨j', by rw [lookupJob_setJob_ne _ _ _ _ hid]; exact hj', hjp'⟩
        · rw [if_neg hp]
          exact ih _ _ h1 h2 h3 h4 h5
    · rw [processQueueGo_full _ _ _ (Nat.not_lt.mp hlt)]
      exact ⟨h1, h2, h3, h4, h5⟩

theorem processQueue_inv (s : QState) (h : Inv s) : Inv (processQueue s) := by
  obtain ⟨h1, h2, h3, h4, h5⟩ := h
  obtain ⟨g1, g2, g3, g4, g5⟩ :=
    processQueueGo_inv s.queue s.jobs s.active h1 h2 h3 h4 h5
  exact ⟨g1, g2, g3, g4, g5⟩

theorem settle_none (m : JobMap) (id : String) (r : Except String (List String))
    (h : lookupJob m id = none) : executeDownloadSettle m id r = m := by
  simp [executeDownloadSettle, h]

theorem settle_lookup_ne (m : JobMap) (id id' : String)
    (r : Except String (List String)) (h : id' ≠ id) :
    lookupJob (executeDownloadSettle m id r) id' = lookupJob m id' := by
  unfold executeDownloadSettle
  cases lookupJob m id with
  | none => rfl
  | some job =>
    cases r with
    | ok fs => exact lookupJob_setJob_ne _ _ _ _ h
    | error msg =>
      by_cases hc : strIncludes ("Error: " ++ msg) "cancelled" = true
      · simp only [hc, if_true]
        exact lookupJob_setJob_ne _ _ _ _ h
      · simp only [eq_false_intro hc, if_false]
        exact lookupJob_setJob_ne _ _ _ _ h

theorem settle_self_spec (m : JobMap) (id : String) (job : Job)
    (r : Except String (List String)) (h : lookupJob m id = some job) :
    ∃ j', lookupJob (executeDownloadSettle m id r) id = some j' ∧
      j'.status ≠ .pending ∧ j'.status ≠ .downloading := by
  unfold executeDownloadSettle
  rw [h]
  cases r with
  | ok fs =>
    exact ⟨_, lookupJob_setJob_self _ _ _, by simp, by simp⟩
  | error msg =>
    by_cases hc : strIncludes ("Error: " ++ msg) "cancelled" = true
    · simp only [hc, if_true]
      exact ⟨_, lookupJob_setJob_self _ _ _, by simp, by simp⟩
    · simp only [eq_false_intro hc, if_false]
      exact ⟨_, lookupJob_setJob_self _ _ _, by simp, by simp⟩

theorem settle_keys_nodup (m : JobMap) (id : String)
    (r : Except String (List String)) (h : (m.map Prod.fst).Nodup) :
    ((executeDownloadSettle m id r).map Prod.fst).Nodup := by
  unfold executeDownloadSettle
  cases lookupJob m id with
  | none => exact h
  | some job =>
    cases r with
    | ok fs => exact keys_setJob_nodup _ _ _ h
    | error msg =>
      by_cases hc : strIncludes ("Error: " ++ msg) "cancelled" = true
      · simp only [hc, if_true]
        exact keys_setJob_nodup _ _ _ h
      · simp only [eq_false_intro hc, if_false]
        exact keys_setJob_nodup _ _ _ h

theorem inv_empty : Inv ⟨[], [], []⟩ := by
  refine ⟨List.nodup_nil, by simp [MAX_CONCURRENT], List.nodup_nil, ?_, ?_⟩
  · intro id j h
    simp [lookupJob] at h
  · intro id h
    simp at h

theorem step_inv (s t : QState) (hinv : Inv s) (h : Step s t) : Inv t := by
  obtain ⟨h1, h2, h3, h4, h5⟩ := hinv
  cases h with
  | submit id j fresh hp =>
    refine processQueue_inv _ ⟨h1, h2, keys_setJob_nodup _ _ _ h3, ?_, ?_⟩
    · intro id' j' hj' hjd
      by_cases hid : id' = id
      · subst hid
        rw [lookupJob_setJob_self] at hj'
        cases hj'
        rw [hp] at hjd
        cases hjd
      · rw [lookupJob_setJob_ne _ _ _ _ hid] at hj'
        exact h4 _ _ hj' hjd
    · intro id' hmem
      obtain ⟨j', hj', hjp'⟩ := h5 _ hmem
      have hid : id' ≠ id := by
        intro hid
        subst hid
        rw [fresh] at hj'
        cases hj'
      exact ⟨j', by rw [lookupJob_setJob_ne _ _ _ _ hid]; exact hj', hjp'⟩
  | finish id r hmem =>
    refine processQueue_inv _ ⟨List.Nodup.erase _ h1,
      le_trans (List.Sublist.length_le (List.erase_sublist _ _)) h2,
      settle_keys_nodup _ _ _ h3, ?_, ?_⟩
    · intro id' j' hj' hjd
      by_cases hid : id' = id
      · subst hid
        obtain ⟨jj, hjj, _⟩ := h5 _ hmem
        obtain ⟨j'', hj'', _, hnd⟩ := settle_self_spec _ _ _ r hjj
        rw [hj''] at hj'
        cases hj'
        exact absurd hjd hnd
      · rw [settle_lookup_ne _ _ _ _ hid] at hj'
        exact (List.mem_erase_of_ne hid).mpr (h4 _ _ hj' hjd)
    · intro id' hmem'
      have hact : id' ∈ s.active := List.mem_of_mem_erase hmem'
      by_cases hid : id' = id
      · subst hid
        obtain ⟨jj, hjj, _⟩ := h5 _ hact
        obtain ⟨j'', hj'', hnp, _⟩ := settle_self_spec _ _ _ r hjj
        exact ⟨j'', hj'', hnp⟩
      · obtain ⟨j', hj', hjp'⟩ := h5 _ hact
        exact ⟨j', by rw [settle_lookup_ne _ _ _ _ hid]; exact hj', hjp'⟩
  | cancel id killed =>
    unfold cancelDownload
    cases hl : lookupJob s.jobs id with
    | none => exact ⟨h1, h2, h3, h4, h5⟩
    | some job =>
      dsimp only
      by_cases hp : job.status = .pending
      · rw [if_pos hp]
        refine ⟨h1, h2, keys_setJob_nodup _ _ _ h3, ?_, ?_⟩
        · intro id' j' hj' hjd
          by_cases hid : id' = id
          · subst hid
            rw [lookupJob_setJob_self] at hj'
            cases hj'
            cases hjd
          · rw [lookupJob_setJob_ne _ _ _ _ hid] at hj'
            exact h4 _ _ hj' hjd
        · intro id' hmem
          obtain ⟨j', hj', hjp'⟩ := h5 _ hmem
          have hid : id' ≠ id := by
            intro hid
            subst hid
            rw [hl] at hj'
            cases hj'
            exact hjp' hp
          exact ⟨j', by rw [lookupJob_setJob_ne _ _ _ _ hid]; exact hj', hjp'⟩
      · by_cases hd : job.status = .downloading
        · rw [if_neg hp, if_pos hd]
          cases killed with
          | false =>
            rw [if_neg Bool.false_ne_true]
            exact ⟨h1, h2, h3, h4, h5⟩
          | true =>
            rw [if_pos rfl]
            refine ⟨h1, h2, keys_setJob_nodup _ _ _ h3, ?_, ?_⟩
            · intro id' j' hj' hjd
              by_cases hid : id' = id
              · subst hid
                rw [lookupJob_setJob_self] at hj'
                cases hj'
                cases hjd
              · rw [lookupJob_setJob_ne _ _ _ _ hid] at hj'
                exact h4 _ _ hj' hjd
            · intro id' hmem
              by_cases hid : id' = id
              · subst hid
                exact ⟨_, lookupJob_setJob_self _ _ _, by simp⟩
              · obtain ⟨j', hj', hjp'⟩ := h5 _ hmem
                exact ⟨j', by rw [lookupJob_setJob_ne _ _ _ _ hid]; exact hj',
                  hjp'⟩
        · rw [if_neg hp, if_neg hd]
          exact ⟨h1, h2, h3, h4, h5⟩
  | clear => exact inv_empty

theorem resetJob_not_downloading (j : Job) :
    (resetJob j).status ≠ .downloading := by
  unfold resetJob
  by_cases h : j.status = .downloading
  · simp [h]
  · simp [h]

theorem restoreFold_keys_nodup (es : List (String × Job)) (m : JobMap)
    (h : (m.map Prod.fst).Nodup) :
    ((restoreFold m es).map Prod.fst).Nodup := by
  induction es generalizing m with
  | nil => exact h
  | cons e rest ih =>
    obtain ⟨id, j⟩ := e
    exact ih _ (keys_setJob_nodup _ _ _ h)

theorem lookupJob_restoreFold (es : List (String × Job)) (m : JobMap)
    (id : String) (j : Job) (h : lookupJob (restoreFold m es) id = some j) :
    (∃ e ∈ es, j = resetJob e.2) ∨ lookupJob m id = some j := by
  induction es generalizing m with
  | nil => exact Or.inr h
  | cons e rest ih =>
    obtain ⟨k, v⟩ := e
    rcases ih _ h with ⟨e', he', hj⟩ | h'
    · exact Or.inl ⟨e', List.mem_cons_of_mem _ he', hj⟩
    · by_cases hk : id = k
      · subst hk
        rw [lookupJob_setJob_self] at h'
        cases h'
        exact Or.inl ⟨(id, v), List.mem_cons_self _ _, rfl⟩
      · rw [lookupJob_setJob_ne _ _ _ _ hk] at h'
        exact Or.inr h'

theorem restore_inv (st : PersistedState) : Inv (restoreState st) := by
  refine ⟨List.nodup_nil, by simp [restoreState, MAX_CONCURRENT], ?_, ?_, ?_⟩
  · exact restoreFold_keys_nodup _ _ List.nodup_nil
  · intro id j hj hjd
    rcases lookupJob_restoreFold _ _ _ _ hj with ⟨e, _, hje⟩ | hnone
    · exact absurd hjd (hje ▸ resetJob_not_downloading e.2)
    · simp [lookupJob] at hnone
  · intro id hmem
    simp [restoreState] at hmem

theorem load_inv (now : Nat) (fileExists : Bool) (raw : String)
    (parsed : Option PersistedState) :
    Inv (loadState now fileExists raw parsed).state := by
  unfold loadState
  cases fileExists with
  | false => exact inv_empty
  | true =>
    by_cases ht : isBlank raw = true
    · simp only [if_pos rfl, ht, if_true]
      exact inv_empty
    · cases parsed with
      | none => simp only [if_pos rfl, if_neg ht]; exact inv_empty
      | some st =>
        simp only [if_pos rfl, if_neg ht]
        exact processQueue_inv _ (restore_inv st)

theorem reachable_inv (s : QState) (h : Reachable s) : Inv s := by
  induction h with
  | init => exact inv_empty
  | load now fileExists raw parsed => exact load_inv now fileExists raw parsed
  | step s t hs hstep ih => exact step_inv s t ih hstep

theorem countDownloading_le_active (s : QState) (h : Inv s) :
    countDownloading s ≤ s.active.length := by
  obtain ⟨h1, _, h3, h4, _⟩ := h
  set l := s.jobs.filter fun e => e.2.status = JobStatus.downloading with hl
  have hsub : (l.map Prod.fst) ⊆ s.active := by
    intro x hx
    obtain ⟨⟨k, v⟩, hkv, hk⟩ := List.mem_map.mp hx
    subst hk
    have hmem : (k, v) ∈ s.jobs := List.mem_of_mem_filter hkv
    have hstat : v.status = JobStatus.downloading := by
      have := List.of_mem_filter hkv
      simpa using this
    exact h4 _ _ (lookupJob_of_mem _ _ _ h3 hmem) hstat
  have hnd : (l.map Prod.fst).Nodup :=
    List.Sublist.nodup (List.Sublist.map _ (List.filter_sublist _)) h3
  have hlen : (l.map Prod.fst).length ≤ s.active.length := by
    calc (l.map Prod.fst).length = (l.map Prod.fst).toFinset.card :=
          (List.toFinset_card_of_nodup hnd).symm
      _ ≤ s.active.toFinset.card := Finset.card_le_card (by
          intro x hx
          simp only [List.mem_toFinset] at hx ⊢
          exact hsub hx)
      _ ≤ s.active.length := List.toFinset_card_le s.active
  simpa [countDownloading, hl] using hlen

/-- C1: the claim states that cancelling a `"downloading"` job yields final
status `"cancelled"`, never `"failed"`.  The code does the opposite:
`cancelDownload` kills the process and sets `"cancelled"`, but the killed
process exits non-zero (e.g. 143 after SIGTERM), `download` throws
`"yt-dlp failed with exit code 143"` because its `wasCancelled` flag is never
set, and `executeDownload`'s catch — finding no `"cancelled"` in the message —
overwrites the status with `"failed"`.  This theorem evaluates the embedded
code on that failing input. -/
theorem cancel_during_download_reports_failed :
    (cancelDownload c1Start "a" true).2 = true ∧
    lookupJob (cancelDownload c1Start "a" true).1.jobs "a"
      = some { status := JobStatus.cancelled } ∧
    downloadExit 143 [] = Except.error "yt-dlp failed with exit code 143" ∧
    lookupJob (finishDownload (cancelDownload c1Start "a" true).1 "a"
        (downloadExit 143 [])).jobs "a"
      = some { status := JobStatus.failed,
               error := some "Error: yt-dlp failed with exit code 143" } ∧
    JobStatus.failed ≠ JobStatus.cancelled := by
  refine ⟨rfl, rfl, rfl, ?_, by decide⟩
  decide

/-- C3: at every reachable state the number of `"downloading"` jobs, and the
size of the active set, are at most `MAX_CONCURRENT` (3); moreover the
admission pass dequeues nothing once the active count has reached the
bound. -/
theorem concurrency_bound_reachable (s : QState) (h : Reachable s) :
    countDownloading s ≤ MAX_CONCURRENT ∧
    s.active.length ≤ MAX_CONCURRENT ∧
    (MAX_CONCURRENT ≤ s.active.length → processQueue s = s) := by
  have hinv := reachable_inv s h
  refine ⟨le_trans (countDownloading_le_active s hinv) hinv.activeBound,
    hinv.activeBound, ?_⟩
  intro hfull
  simp only [processQueue]
  rw [processQueueGo_full _ _ _ hfull]

/-- Witness for C3: a state reached by submitting one job to a fresh
manager. -/
theorem concurrency_bound_reachable_witness :
    countDownloading (addDownload ⟨[], [], []⟩ "a" { status := JobStatus.pending })
      ≤ MAX_CONCURRENT ∧
    (addDownload ⟨[], [], []⟩ "a" { status := JobStatus.pending }).active.length
      ≤ MAX_CONCURRENT ∧
    (MAX_CONCURRENT ≤
        (addDownload ⟨[], [], []⟩ "a" { status := JobStatus.pending }).active.length →
      processQueue (addDownload ⟨[], [], []⟩ "a" { status := JobStatus.pending })
        = addDownload ⟨[], [], []⟩ "a" { status := JobStatus.pending }) :=
  concurrency_bound_reachable _
    (Reachable.step _ _ Reachable.init (Step.submit _ "a" _ rfl rfl))

theorem lookupJob_restoreFold_not_mem (es : List (String × Job)) (m : JobMap)
    (id : String) (h : ∀ e ∈ es, e.1 ≠ id) :
    lookupJob (restoreFold m es) id = lookupJob m id := by
  induction es generalizing m with
  | nil => rfl
  | cons e rest ih =>
    obtain ⟨k, v⟩ := e
    have hk : k ≠ id := h (k, v) (List.mem_cons_self _ _)
    rw [restoreFold, ih _ fun e' he' => h e' (List.mem_cons_of_mem _ he'),
      lookupJob_setJob_ne _ _ _ _ fun hh => hk hh.symm]

theorem lookupJob_restoreFold_of_mem (es : List (String × Job)) (m : JobMap)
    (id : String) (j : Job) (hnd : (es.map Prod.fst).Nodup)
    (hmem : (id, j) ∈ es) :
    lookupJob (restoreFold m es) id = some (resetJob j) := by
  induction es generalizing m with
  | nil => simp at hmem
  | cons e rest ih =>
    obtain ⟨k, v⟩ := e
    rw [List.map_cons, List.nodup_cons] at hnd
    rcases List.mem_cons.mp hmem with h1 | h1
    · cases h1
      rw [restoreFold,
        lookupJob_restoreFold_not_mem rest _ id fun e' he' => by
          intro hh
          exact hnd.1 (List.mem_map.mpr ⟨e', he', hh⟩),
        lookupJob_setJob_self]
    · exact ih _ hnd.2 h1

/-- C2 counterexample: a snapshot holding one job stored as `"downloading"`
with a queue that no longer contains its id (exactly what the manager
persists once a job has been admitted).  `loadState` resets the job to
`"pending"` but its id occurs zero times — not exactly once — in the rebuilt
queue. -/
theorem load_requeue_cex :
    lookupJob (restoreState c2Snapshot).jobs "a"
      = some { status := JobStatus.pending } ∧
    (restoreState c2Snapshot).queue.count "a" = 0 ∧
    ¬ (restoreState c2Snapshot).queue.count "a" = 1 := by
  refine ⟨by decide, by decide, by decide⟩

/-- C2 amended: on load, a job stored as `"downloading"` is restored with
status `"pending"`; the queue is rebuilt keeping exactly the persisted queue
entries whose restored status is `"pending"`, so the reset job's id occurs in
the rebuilt queue exactly as often as in the persisted queue (in particular
it is not re-enqueued when absent); one admission pass is invoked
afterwards. -/
theorem load_restores_downloading_as_pending (now : Nat) (raw : String)
    (st : PersistedState) (id : String) (j : Job)
    (hnd : (st.jobs.map Prod.fst).Nodup)
    (hmem : (id, j) ∈ st.jobs)
    (hd : j.status = .downloading)
    (hraw : ¬ isBlank raw = true) :
    lookupJob (restoreState st).jobs id
      = some { j with status := JobStatus.pending } ∧
    (restoreState st).queue.count id = st.queue.count id ∧
    (restoreState st).queue = st.queue.filter (fun i =>
      match lookupJob (restoreState st).jobs i with
      | some jj => jj.status == JobStatus.pending
      | none => false) ∧
    (loadState now true raw (some st)).state = processQueue (restoreState st) := by
  have hlook : lookupJob (restoreState st).jobs id = some (resetJob j) :=
    lookupJob_restoreFold_of_mem st.jobs [] id j hnd hmem
  have hreset : resetJob j = { j with status := JobStatus.pending } := by
    simp [resetJob, hd]
  refine ⟨by rw [hlook, hreset], ?_, rfl, by simp [loadState, hraw]⟩
  show (st.queue.filter _).count id = st.queue.count id
  apply List.count_filter
  show (match lookupJob (restoreFold [] st.jobs) id with
    | some jj => jj.status == JobStatus.pending
    | none => false) = true
  have heq : lookupJob (restoreFold [] st.jobs) id = some (resetJob j) := hlook
  rw [heq, hreset]
  rfl

/-- Witness for C2's amended statement: a snapshot whose queue still holds
the downloading job's id once. -/
theorem load_restores_downloading_as_pending_witness :
    lookupJob (restoreState ⟨[("b", { status := JobStatus.downloading })], ["b"]⟩).jobs "b"
      = some { status := JobStatus.pending } ∧
    (restoreState ⟨[("b", { status := JobStatus.downloading })], ["b"]⟩).queue.count "b"
      = (["b"] : List String).count "b" ∧
    (restoreState ⟨[("b", { status := JobStatus.downloading })], ["b"]⟩).queue
      = (["b"] : List String).filter (fun i =>
        match lookupJob (restoreState ⟨[("b", { status := JobStatus.downloading })], ["b"]⟩).jobs i with
        | some jj => jj.status == JobStatus.pending
        | none => false) ∧
    (loadState 7 true "garbage"
        (some ⟨[("b", { status := JobStatus.downloading })], ["b"]⟩)).state
      = processQueue (restoreState ⟨[("b", { status := JobStatus.downloading })], ["b"]⟩) :=
  load_restores_downloading_as_pending 7 "garbage"
    ⟨[("b", { status := JobStatus.downloading })], ["b"]⟩ "b"
    { status := JobStatus.downloading }
    (by decide) (List.mem_cons_self _ _) rfl (by decide)

theorem perItemLoop_mem (runs : List ItemRun) (total completed i : Nat)
    (hi : i < runs.length) (p : ℚ)
    (hp : p ∈ (runs.get ⟨i, hi⟩).samples) :
    Prog.mk (((completed + i : Nat) : ℚ) / total * 100 + p / total)
        (completed + i + 1) total
      ∈ (perItemLoop total completed runs).1 := by
  induction runs generalizing completed i with
  | nil => exact absurd hi (Nat.not_lt_zero i)
  | cons r rest ih =>
    cases i with
    | zero =>
      refine List.mem_append.mpr (Or.inl ?_)
      refine List.mem_cons_of_mem _ (List.mem_map.mpr ⟨p, hp, ?_⟩)
      have hc : ((completed + 1 : Nat) : ℚ) - 1 = ((completed + 0 : Nat) : ℚ) := by
        push_cast
        ring
      rw [hc]
    | succ i' =>
      have hi' : i' < rest.length := Nat.lt_of_succ_lt_succ hi
      have hmem := ih (completed + 1) i' hi' hp
      refine List.mem_append.mpr (Or.inr ?_)
      have harith : completed + 1 + i' = completed + (i' + 1) := by omega
      rw [harith] at hmem
      exact hmem

/-- C4: in per-item mode, while the (1-based) item `i + 1` of `n` is running
and its own subprocess reports percent `p`, the emitted aggregate percent is
exactly `(i / n) * 100 + p / n` (the claim's `((i₁ - 1) / n) * 100 + p / n`
for the 1-based index `i₁ = i + 1`); for a 2-item job during its second item
this value is `50 + p / 2`. -/
theorem per_item_aggregate_percent (runs : List ItemRun) (i : Nat)
    (hi : i < runs.length) (p : ℚ)
    (hp : p ∈ (runs.get ⟨i, hi⟩).samples) :
    Prog.mk ((i : ℚ) / runs.length * 100 + p / runs.length) (i + 1) runs.length
      ∈ (downloadPlaylistWithPerItemFormats runs).1 ∧
    (runs.length = 2 → i = 1 →
      (i : ℚ) / runs.length * 100 + p / runs.length = 50 + p / 2) := by
  constructor
  · have := perItemLoop_mem runs runs.length 0 i hi p hp
    simpa using this
  · intro h2 h1
    subst h1
    rw [h2]
    norm_num

/-- Witness for C4: a 2-item playlist whose second item reports 30 percent;
the aggregate is 65 = 50 + 30/2. -/
theorem per_item_aggregate_percent_witness :
    Prog.mk (((1 : Nat) : ℚ) / c4Runs.length * 100 + 30 / c4Runs.length)
        (1 + 1) c4Runs.length
      ∈ (downloadPlaylistWithPerItemFormats c4Runs).1 ∧
    (c4Runs.length = 2 → 1 = 1 →
      ((1 : Nat) : ℚ) / c4Runs.length * 100 + 30 / c4Runs.length = 50 + 30 / 2) :=
  per_item_aggregate_percent c4Runs 1 (by decide) 30 (by simp [c4Runs])

theorem perItemLoop_files (total : Nat) (runs : List ItemRun) (completed : Nat) :
    (perItemLoop total completed runs).2
      = (runs.map fun r => match r.result with
          | Except.ok fs => fs
          | Except.error _ => []).flatten := by
  induction runs generalizing completed with
  | nil => rfl
  | cons r rest ih =>
    simp only [perItemLoop, List.map_cons, List.flatten_cons, ih]

theorem perItemLoop_start_mem (runs : List ItemRun) (total completed i : Nat)
    (hi : i < runs.length) :
    Prog.mk 0 (completed + i + 1) total ∈ (perItemLoop total completed runs).1 := by
  induction runs generalizing completed i with
  | nil => exact absurd hi (Nat.not_lt_zero i)
  | cons r rest ih =>
    cases i with
    | zero => exact List.mem_append.mpr (Or.inl (List.mem_cons_self _ _))
    | succ i' =>
      have hi' : i' < rest.length := Nat.lt_of_succ_lt_succ hi
      have hmem := ih (completed + 1) i' hi'
      refine List.mem_append.mpr (Or.inr ?_)
      have harith : completed + 1 + i' = completed + (i' + 1) := by omega
      rw [harith] at hmem
      exact hmem

/-- C9: in per-item mode a single item's failure is caught and skipped: the
job's file list is exactly the concatenation of the file lists of the items
whose subprocess succeeded; every item — also each one after a failed item —
still emits its start event (it is attempted); and the job settles as
`"completed"` with exactly those files, not as `"failed"`. -/
theorem per_item_partial_success (runs : List ItemRun) (i : Nat)
    (hi : i < runs.length) (m : JobMap) (id : String) (j : Job)
    (hj : lookupJob m id = some j) :
    (downloadPlaylistWithPerItemFormats runs).2
      = (runs.map fun r => match r.result with
          | Except.ok fs => fs
          | Except.error _ => []).flatten ∧
    Prog.mk 0 (i + 1) runs.length ∈ (downloadPlaylistWithPerItemFormats runs).1 ∧
    lookupJob (executeDownloadSettle m id
        (Except.ok (downloadPlaylistWithPerItemFormats runs).2)) id
      = some { j with status := JobStatus.completed, files := some (downloadPlaylistWithPerItemFormats runs).2 } := by
  refine ⟨perItemLoop_files _ _ _, ?_, ?_⟩
  · have := perItemLoop_start_mem runs runs.length 0 i hi
    simpa using this
  · unfold executeDownloadSettle
    rw [hj]
    exact lookupJob_setJob_self _ _ _

/-- Witness for C9: first item fails, second succeeds; the job completes with
the second item's file. -/
theorem per_item_partial_success_witness :
    (downloadPlaylistWithPerItemFormats c9Runs).2
      = (c9Runs.map fun r => match r.result with
          | Except.ok fs => fs
          | Except.error _ => []).flatten ∧
    Prog.mk 0 (1 + 1) c9Runs.length
      ∈ (downloadPlaylistWithPerItemFormats c9Runs).1 ∧
    lookupJob (executeDownloadSettle c9Jobs "a"
        (Except.ok (downloadPlaylistWithPerItemFormats c9Runs).2)) "a"
      = some { c9Job with status := JobStatus.completed, files := some (downloadPlaylistWithPerItemFormats c9Runs).2 } :=
  per_item_partial_success c9Runs 1 (by decide) c9Jobs "a" c9Job rfl

theorem historyAfter_append (samples : List ℚ) (x : ℚ) :
    historyAfter (samples ++ [x]) = pushSpeed (historyAfter samples) x := by
  simp [historyAfter, List.foldl_append]

theorem historyAfter_drop (samples : List ℚ) :
    historyAfter samples
      = samples.drop (samples.length - SPEED_HISTORY_SIZE) := by
  induction samples using List.reverseRecOn with
  | nil => rfl
  | append_singleton s x ih =>
    rw [historyAfter_append, ih]
    simp only [pushSpeed, SPEED_HISTORY_SIZE] at *
    by_cases h : s.length < 5
    · have h1 : s.length - 5 = 0 := by omega
      have h2 : (s ++ [x]).length - 5 = 0 := by
        simp only [List.length_append, List.length_singleton]
        omega
      rw [h1, h2, List.drop_zero, List.drop_zero, if_neg]
      simp only [List.length_append, List.length_singleton]
      omega
    · push_neg at h
      have hd : s.drop (s.length - 5) ++ [x] = (s ++ [x]).drop (s.length - 5) :=
        (List.drop_append_of_le_length (by omega)).symm
      rw [hd, if_pos, List.tail_drop]
      · have harith : s.length - 5 + 1 = (s ++ [x]).length - 5 := by
          simp only [List.length_append, List.length_singleton]
          omega
        rw [harith]
      · rw [List.length_drop]
        simp only [List.length_append, List.length_singleton]
        omega

/-- C5: the speed value reported with a progress line is the arithmetic mean
of the trailing window of at most `SPEED_HISTORY_SIZE` (5) raw samples — the
history after any sample sequence is exactly its last at-most-5 entries and
the report averages them — and after the raw samples 10, 20, 30, 20, 10 the
reported value is their mean 18, not the latest raw sample 10. -/
theorem speed_trailing_average (samples : List ℚ) :
    historyAfter samples
      = samples.drop (samples.length - SPEED_HISTORY_SIZE) ∧
    reportedSpeed samples
      = listAvg (samples.drop (samples.length - SPEED_HISTORY_SIZE)) ∧
    reportedSpeed [10, 20, 30, 20, 10] = 18 ∧
    reportedSpeed [10, 20, 30, 20, 10] ≠ 10 := by
  refine ⟨historyAfter_drop samples, ?_,
    by norm_num [reportedSpeed, historyAfter, pushSpeed, listAvg,
      SPEED_HISTORY_SIZE, List.foldl],
    by norm_num [reportedSpeed, historyAfter, pushSpeed, listAvg,
      SPEED_HISTORY_SIZE, List.foldl]⟩
  rw [reportedSpeed, historyAfter_drop]

theorem saveStateRuns_chain (ts : List Nat) (t : Nat)
    (h : List.Chain (fun a b => b < a + 1000) t ts) :
    saveStateRuns (some (t + 1000)) ts
      = [(t :: ts).getLast (List.cons_ne_nil t ts) + 1000] := by
  induction ts generalizing t with
  | nil => simp [saveStateRuns]
  | cons t' ts ih =>
    obtain ⟨hlt, hch⟩ := List.chain_cons.mp h
    simp only [saveStateRuns]
    rw [if_neg (by omega), ih t' hch]
    have hlast : (t :: t' :: ts).getLast (List.cons_ne_nil t (t' :: ts))
        = (t' :: ts).getLast (List.cons_ne_nil t' ts) := List.getLast_cons _
    rw [hlast]

/-- C6: saves are trailing-edge debounced with the 1000 ms constant of
`saveState`: a run of mutations each arriving strictly within 1000 ms of the
previous one produces exactly one write, scheduled 1000 ms after the last
mutation; in particular ten such mutations at 0, 100, ..., 900 produce the
single write at 1900. -/
theorem debounce_single_write (t : Nat) (ts : List Nat)
    (hchain : List.Chain (fun a b => b < a + 1000) t ts) :
    saveStateRuns none (t :: ts)
      = [(t :: ts).getLast (List.cons_ne_nil t ts) + 1000] ∧
    (saveStateRuns none (t :: ts)).length = 1 ∧
    saveStateRuns none [0, 100, 200, 300, 400, 500, 600, 700, 800, 900]
      = [1900] := by
  have h1 : saveStateRuns none (t :: ts) = saveStateRuns (some (t + 1000)) ts :=
    rfl
  refine ⟨?_, ?_, by decide⟩
  · rw [h1, saveStateRuns_chain ts t hchain]
  · rw [h1, saveStateRuns_chain ts t hchain]
    rfl

/-- Witness for C6: the ten mutations at 0, 100, ..., 900. -/
theorem debounce_single_write_witness :
    saveStateRuns none (0 :: [100, 200, 300, 400, 500, 600, 700, 800, 900])
      = [(0 :: [100, 200, 300, 400, 500, 600, 700, 800, 900]).getLast
          (List.cons_ne_nil 0 [100, 200, 300, 400, 500, 600, 700, 800, 900])
          + 1000] ∧
    (saveStateRuns none
        (0 :: [100, 200, 300, 400, 500, 600, 700, 800, 900])).length = 1 ∧
    saveStateRuns none [0, 100, 200, 300, 400, 500, 600, 700, 800, 900]
      = [1900] :=
  debounce_single_write 0 [100, 200, 300, 400, 500, 600, 700, 800, 900]
    (by simp only [List.chain_cons, List.Chain.nil]
        refine ⟨by omega, by omega, by omega, by omega, by omega, by omega,
          by omega, by omega, by omega, trivial⟩)

theorem inv_single (a : String) (j : Job) (q : List String)
    (hnd : j.status ≠ .downloading) : Inv ⟨[(a, j)], q, []⟩ := by
  refine ⟨List.nodup_nil, by simp [MAX_CONCURRENT], by simp, ?_, ?_⟩
  · intro id j' hj' hjd
    simp only [lookupJob] at hj'
    by_cases h : a = id
    · rw [if_pos h] at hj'
      cases hj'
      exact absurd hjd hnd
    · rw [if_neg h] at hj'
      simp at hj'
  · intro id h
    simp at h

/-- C7: cancelling a `"pending"` job removes its id from the queue, marks it
`"cancelled"`, and returns `true`; an admission pass run afterwards re-checks
the status on dequeue, so the job is never handed to the process runner: it
keeps status `"cancelled"` and never enters the active set. -/
theorem cancel_pending_never_runs (s : QState) (id : String) (j : Job)
    (killed : Bool) (hinv : Inv s)
    (hj : lookupJob s.jobs id = some j) (hp : j.status = .pending)
    (hq : s.queue.count id ≤ 1) :
    (cancelDownload s id killed).2 = true ∧
    (cancelDownload s id killed).1.queue = s.queue.erase id ∧
    id ∉ (cancelDownload s id killed).1.queue ∧
    lookupJob (cancelDownload s id killed).1.jobs id
      = some { j with status := JobStatus.cancelled } ∧
    lookupJob (processQueue (cancelDownload s id killed).1).jobs id
      = some { j with status := JobStatus.cancelled } ∧
    id ∉ (processQueue (cancelDownload s id killed).1).active := by
  have hqer : id ∉ s.queue.erase id := by
    intro hmem
    have hcnt := List.count_erase_self id s.queue
    have hpos : 0 < (s.queue.erase id).count id := List.count_pos_iff.mpr hmem
    omega
  unfold cancelDownload
  rw [hj]
  dsimp only
  rw [if_pos hp]
  refine ⟨rfl, rfl, hqer, lookupJob_setJob_self _ _ _, ?_, ?_⟩
  · exact processQueueGo_lookup_stable _ _ _ _ _
      (lookupJob_setJob_self _ _ _) (by simp)
  · intro hmem
    rcases processQueueGo_admits_pending _ _ _ _ hmem with hact | ⟨j', hj', hjp⟩
    · obtain ⟨j'', hj'', hnp⟩ := hinv.activeNotPending _ hact
      rw [hj] at hj''
      cases hj''
      exact hnp hp
    · rw [lookupJob_setJob_self] at hj'
      cases hj'
      simp at hjp

/-- Witness for C7: cancelling the queued pending job `"a"` of `c7Start`. -/
theorem cancel_pending_never_runs_witness :
    (cancelDownload c7Start "a" false).2 = true ∧
    (cancelDownload c7Start "a" false).1.queue = c7Start.queue.erase "a" ∧
    "a" ∉ (cancelDownload c7Start "a" false).1.queue ∧
    lookupJob (cancelDownload c7Start "a" false).1.jobs "a"
      = some { c7Job with status := JobStatus.cancelled } ∧
    lookupJob (processQueue (cancelDownload c7Start "a" false).1).jobs "a"
      = some { c7Job with status := JobStatus.cancelled } ∧
    "a" ∉ (processQueue (cancelDownload c7Start "a" false).1).active :=
  cancel_pending_never_runs c7Start "a" c7Job false
    (inv_single _ _ _ (by simp [c7Job])) rfl rfl (by decide)

/-- C8: a corrupted (present, non-blank, unparsable) snapshot never brings
the manager down: the raw content is written unchanged to the timestamped
`.corrupt.` backup path and the manager proceeds with zero jobs and an empty
queue; a missing file, and blank content, are likewise non-fatal and leave
the empty state without writing any backup. -/
theorem corrupted_snapshot_safe (now : Nat) (raw : String)
    (parsed : Option PersistedState) (hraw : ¬ isBlank raw = true) :
    loadState now true raw none
      = ⟨some (stateFilePath ++ ".corrupt." ++ toString now, raw),
         ⟨[], [], []⟩⟩ ∧
    (loadState now true raw none).state.jobs = [] ∧
    (loadState now true raw none).state.queue = [] ∧
    loadState now false raw parsed = ⟨none, ⟨[], [], []⟩⟩ ∧
    loadState now true "" parsed = ⟨none, ⟨[], [], []⟩⟩ := by
  have h1 : loadState now true raw none
      = ⟨some (stateFilePath ++ ".corrupt." ++ toString now, raw),
         ⟨[], [], []⟩⟩ := by
    simp [loadState, hraw]
  refine ⟨h1, by rw [h1], by rw [h1], rfl, rfl⟩

/-- Witness for C8: the unparsable content `"x"` at `Date.now() = 0`. -/
theorem corrupted_snapshot_safe_witness :
    loadState 0 true "x" none
      = ⟨some (stateFilePath ++ ".corrupt." ++ toString 0, "x"),
         ⟨[], [], []⟩⟩ ∧
    (loadState 0 true "x" none).state.jobs = [] ∧
    (loadState 0 true "x" none).state.queue = [] ∧
    loadState 0 false "x" none = ⟨none, ⟨[], [], []⟩⟩ ∧
    loadState 0 true "" none = ⟨none, ⟨[], [], []⟩⟩ :=
  corrupted_snapshot_safe 0 "x" none (by decide)

/-- C10: one `YtDlpCli` instance has a single `speedHistory` buffer shared by
every download it runs: any `download()` call resets it (first conjunct, and
every sample's report averages the buffer as it stands, whatever download
filled it — second conjunct).  In the interleaving where download 1 samples
10, download 2 then starts and samples 30, and download 1 then samples 50,
download 1's report is 40 — the mean of 30 and 50, averaging download 2's
sample — not the mean 30 of its own samples; and download 2's report 30 shows
download 1's earlier sample was wiped by the reset. -/
theorem shared_speed_history_instance :
    (∀ (h : List ℚ) (es : List SEvent),
      runSpeedAux h (SEvent.start :: es) = runSpeedAux [] es) ∧
    (∀ (h : List ℚ) (tag : Nat) (raw : ℚ) (es : List SEvent),
      (runSpeedAux h (SEvent.sample tag raw :: es)).2
        = (tag, listAvg (pushSpeed h raw))
            :: (runSpeedAux (pushSpeed h raw) es).2) ∧
    (runSpeed [SEvent.start, SEvent.sample 1 10, SEvent.start,
        SEvent.sample 2 30, SEvent.sample 1 50]).2
      = [(1, 10), (2, 30), (1, 40)] ∧
    listAvg [30, 50] = 40 ∧
    listAvg [10, 50] ≠ 40 ∧
    listAvg [10, 30] ≠ 30 := by
  refine ⟨fun h es => rfl, fun h tag raw es => rfl, ?_, ?_, ?_, ?_⟩ <;>
    norm_num [runSpeed, runSpeedAux, pushSpeed, listAvg, SPEED_HISTORY_SIZE]

end YtDlpWeb
